import Mathlib

/-!
Verification of the ut-payplan data pipeline.

This file gives a shallow embedding of the core of the repository:

* `JobListing._parse_salary` in `classes.py`, i.e. a scan of the input for
  the pattern `\$([\d,]+\.\d{2})` (Python `re.findall`) followed by the
  two-matches rule, with Python floats modelled as exact rationals;
* the `title` accessor in `classes.py`, i.e. `re.search` of `>(.*?)<`
  where the dot matches every character except a newline;
* `dict(zip(KEYS, job))` from `save_payment_plan_data` in `main.py`,
  with dictionaries modelled as ordered association lists;
* `fetch_all_data` in `main.py`, with the remote endpoint abstracted as a
  function from page requests to data arrays and the issued requests
  recorded as a trace;
* `get_payment_plan` in `main.py`, with the filesystem state at
  `OUTPUT_PATH` modelled as an optional snapshot value and JSON
  serialisation plus deserialisation modelled as the identity.
-/

/-- A character accepted by the class of digits-and-commas in the salary
pattern, i.e. `[\d,]`: an ASCII digit or a comma. -/
def isNumSep (c : Char) : Bool := c.isDigit || c = ','

/-- Attempt to match `[\d,]+\.\d{2}` at the start of `cs`, where `cs` is the
text immediately after a dollar sign.  On success, returns the captured group
together with the number of characters consumed.  The greedy run of
digits-and-commas needs no backtracking: shortening the run would place a
digit or a comma where the literal dot is required, so only the maximal run
can succeed. -/
def sMatch (cs : List Char) : Option (List Char × Nat) :=
  let run := cs.takeWhile isNumSep
  if run.isEmpty then none
  else
    match cs.drop run.length with
    | '.' :: d1 :: d2 :: _ =>
        if d1.isDigit && d2.isDigit then some (run ++ ['.', d1, d2], run.length + 3)
        else none
    | _ => none

/-- Left-to-right non-overlapping scan for `\$([\d,]+\.\d{2})`, as performed
by `re.findall`.  The fuel argument only bounds the recursion: every step
consumes at least one character of the text, so with initial fuel equal to
the length of the text the fuel never runs out before the text does. -/
def findAux : Nat → List Char → List (List Char)
  | 0, _ => []
  | _ + 1, [] => []
  | fuel + 1, c :: cs =>
    if c = '$' then
      match sMatch cs with
      | some (grp, n) => grp :: findAux fuel (cs.drop n)
      | none => findAux fuel cs
    else
      findAux fuel cs

/-- The list of captured groups of `re.findall` for the pattern
`\$([\d,]+\.\d{2})` on `s`, in left-to-right order. -/
def currencyMatches (s : String) : List (List Char) :=
  findAux s.data.length s.data

/-- Value of a string of ASCII digits read in base 10. -/
def digitsVal (cs : List Char) : Nat :=
  cs.foldl (fun a c => 10 * a + (c.toNat - 48)) 0

/-- Value of a decimal string of the form `<digits>.<digits>`, as an exact
rational. -/
def ratOfDecimalString (cs : List Char) : ℚ :=
  let ip := cs.takeWhile (fun c => c ≠ '.')
  let fp := (cs.dropWhile (fun c => c ≠ '.')).drop 1
  (digitsVal ip : ℚ) + (digitsVal fp : ℚ) / (10 : ℚ) ^ fp.length

/-- Models `float(m.replace(",", ""))` applied to a captured salary group:
all commas are removed, then the decimal string is read.  Python floats are
modelled as exact rationals. -/
def salaryVal (m : List Char) : ℚ :=
  ratOfDecimalString (m.filter (fun c => c ≠ ','))

/-- Models `JobListing._parse_salary`: run the currency scan, and if it finds
exactly two matches return them (in source-text order, separators stripped),
otherwise return the pair of nulls.  The function is total: no input makes
it raise. -/
def parse_salary (s : String) : Option ℚ × Option ℚ :=
  match currencyMatches s with
  | [a, b] => (some (salaryVal a), some (salaryVal b))
  | _ => (none, none)

/-- Whole-token test for the shape `[\d,]+\.\d{2}`: a nonempty run of
digits-and-commas, then a dot, then exactly two decimal digits and nothing
else. -/
def isCurrencyShape (g : List Char) : Bool :=
  let run := g.takeWhile isNumSep
  !run.isEmpty &&
    match g.drop run.length with
    | ['.', d1, d2] => d1.isDigit && d2.isDigit
    | _ => false

/-! ## Records -/

/-- A raw positional record as delivered by the remote API: an ordered list
of string fields. -/
abbrev RawRecord := List String

/-- A named record: the Python dictionary built by `dict(zip(KEYS, job))`,
modelled as an ordered association list with pairwise distinct keys. -/
abbrev NamedRecord := List (String × String)

/-- The key schema `KEYS` from `configs.py`. -/
def KEYS : List String :=
  ["Job Title", "Job ID (Job Code)", "Job Category", "Effective Date",
   "Annual Min - Max", "Monthly Min - Max"]

/-- Models `dict(zip(KEYS, job))`: pair schema keys with raw values
positionally, stopping at the shorter of the two lists. -/
def to_named_record (job : RawRecord) : NamedRecord :=
  KEYS.zip job

/-- The persisted snapshot: the JSON object `{"data": [...]}`. -/
structure Snapshot where
  data : List NamedRecord
deriving DecidableEq

/-- Models the pure part of `save_payment_plan_data`: the snapshot value
written to the output file. -/
def save_payment_plan_data (data : List RawRecord) : Snapshot :=
  ⟨data.map to_named_record⟩

/-- Models `job_dict[k]`: a present key yields its value, a missing key
raises a `KeyError`. -/
def jobField (rec : NamedRecord) (k : String) : Except String String :=
  match List.lookup k rec with
  | some v => Except.ok v
  | none => Except.error "KeyError"

/-- Models the `annual_salary_min` accessor of `JobListing`. -/
def annual_salary_min (rec : NamedRecord) : Except String (Option ℚ) :=
  (jobField rec "Annual Min - Max").map fun s => (parse_salary s).1

/-- Models the `annual_salary_max` accessor of `JobListing`. -/
def annual_salary_max (rec : NamedRecord) : Except String (Option ℚ) :=
  (jobField rec "Annual Min - Max").map fun s => (parse_salary s).2

/-- Models the `monthly_salary_min` accessor of `JobListing`. -/
def monthly_salary_min (rec : NamedRecord) : Except String (Option ℚ) :=
  (jobField rec "Monthly Min - Max").map fun s => (parse_salary s).1

/-- Models the `monthly_salary_max` accessor of `JobListing`. -/
def monthly_salary_max (rec : NamedRecord) : Except String (Option ℚ) :=
  (jobField rec "Monthly Min - Max").map fun s => (parse_salary s).2

/-! ## Title extraction -/

/-- Lazy group of `(.*?)<` at the current position: scan forward, stop with
the accumulated group at the first `<`, and fail on a newline (the dot of
the pattern matches every character except a newline) or at the end of the
text. -/
def titleAt : List Char → Option (List Char)
  | [] => none
  | c :: cs =>
    if c = '<' then some []
    else if c = '\n' then none
    else (titleAt cs).map (fun g => c :: g)

/-- Models `re.search` for `>(.*?)<`: try every start position from the left;
a position matches when it holds a `>` whose following text yields a lazy
group, and the first matching position wins. -/
def searchTitle : List Char → Option (List Char)
  | [] => none
  | c :: cs =>
    if c = '>' then
      match titleAt cs with
      | some g => some g
      | none => searchTitle cs
    else
      searchTitle cs

/-- Models the `title` accessor contract: the group of the first match of
`>(.*?)<`, or null when the pattern does not match. -/
def extract_title (s : String) : Option String :=
  (searchTitle s.data).map (fun g => String.mk g)

/-- Follows the claim's words only, for comparison with `extract_title`: the
text strictly between the first `>` that is followed by a `<` and that
following `<`, with no exclusion of newlines. -/
def titleToLt : List Char → Option (List Char)
  | [] => none
  | c :: cs =>
    if c = '<' then some []
    else (titleToLt cs).map (fun g => c :: g)

/-- Follows the claim's words only: scan for the first `>` from which
`titleToLt` succeeds. -/
def searchTitleLoose : List Char → Option (List Char)
  | [] => none
  | c :: cs =>
    if c = '>' then
      match titleToLt cs with
      | some g => some g
      | none => searchTitleLoose cs
    else
      searchTitleLoose cs

/-- Follows the claim's words only: `extract_title` as the claim reads it,
with the dot matching every character. -/
def extract_title_claim (s : String) : Option String :=
  (searchTitleLoose s.data).map (fun g => String.mk g)

/-- A decomposition of the text witnessing one match of `>(.*?)<`: the text
splits as `pre ++ > ++ mid ++ < ++ post` where `mid` contains no `<` (the
lazy group stops at the first `<`) and no newline (the dot does not match a
newline). -/
@[reducible] def IsMatchDecomp (cs pre mid post : List Char) : Prop :=
  cs = pre ++ '>' :: (mid ++ '<' :: post) ∧ '<' ∉ mid ∧ '\n' ∉ mid

/-! ## Pagination -/

/-- The per-page query parameters that `fetch_all_data` varies: the `draw`
correlation counter, the page size `length` and the row offset `start`. -/
structure PageRequest where
  draw : Nat
  length : Nat
  start : Nat
deriving DecidableEq

/-- Models `int(math.ceil(total_records / 100))` over exact arithmetic. -/
def pageCount (total : Nat) : Nat := (total + 99) / 100

/-- The page request issued at loop index `i`:
`{"draw": item, "length": 100, "start": item * 100}`. -/
def mkPage (i : Nat) : PageRequest := ⟨i, 100, i * 100⟩

/-- Models `fetch_all_data`, instrumented with the trace of issued requests.
The endpoint is abstracted as a function `api` from a page request to the
`data` array of its response; the loop appends each response's data to the
accumulator in request order. -/
def fetch_all_data {α : Type} (api : PageRequest → List α) (total : Nat) :
    List PageRequest × List α :=
  (List.range (pageCount total)).foldl
    (fun acc i => (acc.1 ++ [mkPage i], acc.2 ++ api (mkPage i))) ([], [])

/-! ## Cache gate -/

/-- The probe response (the `length = 1` request): the `recordsTotal` field,
which may be absent, together with the raw response body used in the
diagnostic message. -/
structure ProbeResponse where
  recordsTotal : Option Nat
  raw : String
deriving DecidableEq

/-- The remote endpoint as seen by `get_payment_plan`: one probe response and
one data array per page request. -/
structure Api where
  probe : ProbeResponse
  pages : PageRequest → List RawRecord

/-- A network request issued by the pipeline: the probe, or a page request. -/
inductive Request where
  | probe : Request
  | page : PageRequest → Request
deriving DecidableEq

/-- Outcome of one run of `get_payment_plan`: the returned value (or the
uncaught exception), the filesystem state at `OUTPUT_PATH` afterwards, the
trace of network requests in order, and the diagnostic line printed on a
missing `recordsTotal` (carrying the raw response body). -/
structure RunResult where
  result : Except String Snapshot
  fsAfter : Option Snapshot
  trace : List Request
  diagnostic : Option String

/-- Models `get_payment_plan`.  The filesystem at `OUTPUT_PATH` is `fs0`
(`none` when the file does not exist).  On a cache hit the file is read back
with no network traffic.  On a miss, the probe runs first; if its response
lacks `recordsTotal` the diagnostic is printed, nothing is written, and the
final read of the still-missing file raises; otherwise all pages are
fetched, the snapshot is written and read back. -/
def get_payment_plan (api : Api) (fs0 : Option Snapshot) : RunResult :=
  match fs0 with
  | some snap => ⟨Except.ok snap, some snap, [], none⟩
  | none =>
    match api.probe.recordsTotal with
    | none =>
        ⟨Except.error "FileNotFoundError", none, [Request.probe], some api.probe.raw⟩
    | some total =>
        let fetched := fetch_all_data api.pages total
        let snap := save_payment_plan_data fetched.2
        ⟨Except.ok snap, some snap, Request.probe :: fetched.1.map Request.page, none⟩

/-- A concrete endpoint whose dataset is empty: the probe reports 0 records. -/
def apiEmpty : Api := ⟨⟨some 0, "body"⟩, fun _ => []⟩

/-- A concrete endpoint whose probe response lacks the `recordsTotal`
field. -/
def apiNoTotal : Api := ⟨⟨none, "raw body"⟩, fun _ => []⟩

/-! ## Theorems -/

/-- Claim C1: for every input string, `parse_salary` returns the pair of the
two currency numbers found, parsed with separators stripped and in
source-text order, exactly when the scan finds two matches; with any other
match count it returns the pair of nulls.  Totality of the Lean function
models that the Python function never raises. -/
theorem parse_salary_two_matches_rule (s : String) :
    (∀ a b, currencyMatches s = [a, b] →
      parse_salary s = (some (salaryVal a), some (salaryVal b))) ∧
    ((currencyMatches s).length ≠ 2 → parse_salary s = (none, none)) := by
  constructor
  · intro a b h
    simp [parse_salary, h]
  · intro h
    rcases hm : currencyMatches s with _ | ⟨a, _ | ⟨b, _ | ⟨c, l⟩⟩⟩
    · simp [parse_salary, hm]
    · simp [parse_salary, hm]
    · exact absurd (by rw [hm]; rfl) h
    · simp [parse_salary, hm]

/-- If every element of `l` satisfies `p` and `x` does not, taking while `p`
over `l ++ x :: r` yields exactly `l`. -/
theorem takeWhile_append_of_forall {p : Char → Bool} {l : List Char}
    (hl : ∀ a ∈ l, p a = true) {x : Char} (hx : p x = false) (r : List Char) :
    (l ++ x :: r).takeWhile p = l := by
  induction l with
  | nil => simp [List.takeWhile_cons, hx]
  | cons a l ih =>
      have ha := hl a (by simp)
      simp only [List.cons_append, List.takeWhile_cons, ha, if_true]
      rw [ih (fun b hb => hl b (by simp [hb]))]

/-- If every element of `l` satisfies `p`, dropping while `p` over
`l ++ x :: r` with `p x` false yields exactly `x :: r`. -/
theorem dropWhile_append_of_forall {p : Char → Bool} {l : List Char}
    (hl : ∀ a ∈ l, p a = true) {x : Char} (hx : p x = false) (r : List Char) :
    (l ++ x :: r).dropWhile p = x :: r := by
  induction l with
  | nil => simp [List.dropWhile_cons, hx]
  | cons a l ih =>
      have ha := hl a (by simp)
      simp only [List.cons_append, List.dropWhile_cons, ha, if_true]
      exact ih (fun b hb => hl b (by simp [hb]))

/-- Evaluation rule for `salaryVal`: when the comma-stripped group splits as
integer digits, a dot, and fractional digits, the value is the integer part
plus the fractional part scaled down. -/
theorem salaryVal_eval (m ip fp : List Char)
    (hsplit : m.filter (fun c => c ≠ ',') = ip ++ '.' :: fp) (hip : '.' ∉ ip) :
    salaryVal m = (digitsVal ip : ℚ) + (digitsVal fp : ℚ) / (10 : ℚ) ^ fp.length := by
  have hip' : ∀ a ∈ ip, (fun c => decide (c ≠ '.')) a = true := by
    intro a ha
    have hne : a ≠ '.' := fun h => hip (h ▸ ha)
    simpa using hne
  have hdot : (fun c => decide (c ≠ '.')) '.' = false := by decide
  simp only [salaryVal, ratOfDecimalString, hsplit,
    takeWhile_append_of_forall hip' hdot, dropWhile_append_of_forall hip' hdot,
    List.drop_succ_cons, List.drop_zero]

/-- Witness for C1 at the three concrete examples of the specification. -/
theorem parse_salary_two_matches_rule_witness :
    parse_salary "$1,234.56 - $2,345.67" =
      (some ((123456 : ℚ)/100), some ((234567 : ℚ)/100)) ∧
    parse_salary "N/A" = (none, none) ∧
    parse_salary "$1,000.00" = (none, none) := by
  refine ⟨?_, ?_, ?_⟩
  · have h := (parse_salary_two_matches_rule "$1,234.56 - $2,345.67").1
      ("1,234.56".data) ("2,345.67".data) (by decide)
    rw [h]
    rw [salaryVal_eval "1,234.56".data "1234".data "56".data (by decide) (by decide)]
    rw [salaryVal_eval "2,345.67".data "2345".data "67".data (by decide) (by decide)]
    have d1 : digitsVal "1234".data = 1234 := by decide
    have d2 : digitsVal "56".data = 56 := by decide
    have d3 : digitsVal "2345".data = 2345 := by decide
    have d4 : digitsVal "67".data = 67 := by decide
    have dl : ("56".data).length = 2 := by decide
    have dl' : ("67".data).length = 2 := by decide
    rw [d1, d2, d3, d4, dl, dl']
    norm_num
  · exact (parse_salary_two_matches_rule "N/A").2 (by decide)
  · exact (parse_salary_two_matches_rule "$1,000.00").2 (by decide)

/-- The two components of `parse_salary` are null together: the pair is
either two numbers or two nulls. -/
theorem parse_salary_fst_none_iff (s : String) :
    (parse_salary s).1 = none ↔ (parse_salary s).2 = none := by
  unfold parse_salary
  rcases currencyMatches s with _ | ⟨a, _ | ⟨b, _ | ⟨c, l⟩⟩⟩ <;> simp

/-- Claim C9: over a record holding the respective range key, the minimum
accessor returns null exactly when the maximum accessor does, both for the
annual and for the monthly pair, because both accessors parse the same
field with the same two-matches rule. -/
theorem salary_min_max_null_coupling (rec : NamedRecord) :
    ((List.lookup "Annual Min - Max" rec).isSome →
      (annual_salary_min rec = Except.ok none ↔
        annual_salary_max rec = Except.ok none)) ∧
    ((List.lookup "Monthly Min - Max" rec).isSome →
      (monthly_salary_min rec = Except.ok none ↔
        monthly_salary_max rec = Except.ok none)) := by
  constructor
  · intro h
    obtain ⟨v, hv⟩ := Option.isSome_iff_exists.mp h
    simpa [annual_salary_min, annual_salary_max, jobField, hv, Except.map] using
      parse_salary_fst_none_iff v
  · intro h
    obtain ⟨v, hv⟩ := Option.isSome_iff_exists.mp h
    simpa [monthly_salary_min, monthly_salary_max, jobField, hv, Except.map] using
      parse_salary_fst_none_iff v

/-- Witness for C9 on a concrete record with unparseable range fields. -/
theorem salary_min_max_null_coupling_witness :
    annual_salary_min [("Annual Min - Max", "N/A")] = Except.ok none ↔
      annual_salary_max [("Annual Min - Max", "N/A")] = Except.ok none :=
  (salary_min_max_null_coupling [("Annual Min - Max", "N/A")]).1 (by decide)

/-- Every group returned by `sMatch` has the currency token shape. -/
theorem sMatch_shape {cs : List Char} {g : List Char} {n : Nat}
    (h : sMatch cs = some (g, n)) : isCurrencyShape g = true := by
  simp only [sMatch] at h
  split at h
  · exact absurd h (by simp)
  · split at h
    case _ d1 d2 rest heq =>
      split at h
      case _ hd =>
        have hg : g = cs.takeWhile isNumSep ++ ['.', d1, d2] := by
          injection h with h'
          exact (congrArg Prod.fst h').symm
        have hrun : ∀ a ∈ cs.takeWhile isNumSep, isNumSep a = true :=
          fun a ha => List.mem_takeWhile_imp ha
        have hdot : isNumSep '.' = false := by decide
        subst hg
        simp only [isCurrencyShape]
        rw [takeWhile_append_of_forall hrun hdot]
        simp only [List.drop_left, Bool.and_eq_true] at hd ⊢
        refine ⟨?_, by simp [hd]⟩
        rename_i hne _
        simpa using hne
      · exact absurd h (by simp)
    · exact absurd h (by simp)

/-- Every group returned by the currency scan has the currency token
shape. -/
theorem findAux_shape : ∀ fuel cs, ∀ m ∈ findAux fuel cs, isCurrencyShape m = true := by
  intro fuel
  induction fuel with
  | zero => intro cs m hm; simp [findAux] at hm
  | succ fuel ih =>
    intro cs m hm
    match cs with
    | [] => simp [findAux] at hm
    | c :: cs =>
      rw [findAux] at hm
      by_cases hc : c = '$'
      · rw [if_pos hc] at hm
        rcases hs : sMatch cs with _ | ⟨g, n⟩
        · rw [hs] at hm; exact ih _ _ hm
        · rw [hs] at hm
          rcases List.mem_cons.mp hm with h | h
          · subst h; exact sMatch_shape hs
          · exact ih _ _ h
      · rw [if_neg hc] at hm; exact ih _ _ hm

/-- Claim C6 (amended): every match reported by the currency scan has the
token shape of a nonempty run of digits-or-commas, a dot, and exactly two
decimal digits; amounts with fewer than two decimal digits or with no
decimal point yield no match, but the pattern requires no boundary after
the second decimal digit, so an amount written with more decimal digits
still yields the match made of its first two decimal digits. -/
theorem currency_match_shape_sound :
    (∀ s : String, ∀ m ∈ currencyMatches s, isCurrencyShape m = true) ∧
    currencyMatches "$1.2" = [] ∧
    currencyMatches "$100" = [] ∧
    currencyMatches "$1.234" = [['1', '.', '2', '3']] :=
  ⟨fun _ m hm => findAux_shape _ _ m hm, by decide, by decide, by decide⟩

/-- Witness for C6: the match of a well-formed amount has the token shape. -/
theorem currency_match_shape_sound_witness :
    isCurrencyShape ['1', ',', '2', '3', '4', '.', '5', '6'] = true :=
  currency_match_shape_sound.1 "$1,234.56" ['1', ',', '2', '3', '4', '.', '5', '6']
    (by decide)

/-- Counterexample for C6 as stated: a dollar amount with three decimal
digits is still counted, its first two decimal digits forming the match, so
such amounts do contribute to the two-matches rule. -/
theorem currency_match_extra_decimals_cex :
    currencyMatches "$1.234" ≠ [] ∧
    parse_salary "$1.234 - $5.678" ≠ (none, none) := by
  constructor
  · decide
  · have hm : currencyMatches "$1.234 - $5.678" = ["1.23".data, "5.67".data] := by
      decide
    simp [parse_salary, hm]

/-- Claim C7: a raw record of exactly 6 fields, zipped against the schema
and read back key by key in schema order, reconstructs the original record
field for field. -/
theorem to_named_record_round_trip (raw : RawRecord) (h : raw.length = 6) :
    KEYS.map (fun k => List.lookup k (to_named_record raw)) = raw.map some := by
  rcases raw with _ | ⟨a, _ | ⟨b, _ | ⟨c, _ | ⟨d, _ | ⟨e, _ | ⟨f, _ | ⟨g, raw⟩⟩⟩⟩⟩⟩⟩
  all_goals simp only [List.length_cons, List.length_nil] at h
  all_goals try omega
  rfl

/-- Witness for C7 on a concrete 6-field record. -/
theorem to_named_record_round_trip_witness :
    KEYS.map (fun k => List.lookup k (to_named_record ["t1", "t2", "t3", "t4", "t5", "t6"])) =
      ["t1", "t2", "t3", "t4", "t5", "t6"].map some :=
  to_named_record_round_trip ["t1", "t2", "t3", "t4", "t5", "t6"] (by decide)

/-- Claim C8: a raw record with fewer than 6 fields zips to a mapping whose
key list is exactly the first `raw.length` schema keys in schema order, each
bound to the corresponding raw value, while the trailing schema keys are
absent, not bound to nulls. -/
theorem to_named_record_short_raw (raw : RawRecord) (h : raw.length < 6) :
    ((to_named_record raw).map Prod.fst = KEYS.take raw.length) ∧
    (∀ i, i < raw.length →
      List.lookup (KEYS.getD i "") (to_named_record raw) = some (raw.getD i "")) ∧
    (∀ k ∈ KEYS.drop raw.length, List.lookup k (to_named_record raw) = none) := by
  rcases raw with _ | ⟨a, _ | ⟨b, _ | ⟨c, _ | ⟨d, _ | ⟨e, _ | ⟨f, raw⟩⟩⟩⟩⟩⟩
  · refine ⟨rfl, fun i hi => by simp at hi, fun k hk => ?_⟩
    fin_cases hk <;> rfl
  · refine ⟨rfl, fun i hi => ?_, fun k hk => ?_⟩
    · have hi' : i < 1 := by simpa using hi
      interval_cases i <;> rfl
    · fin_cases hk <;> rfl
  · refine ⟨rfl, fun i hi => ?_, fun k hk => ?_⟩
    · have hi' : i < 2 := by simpa using hi
      interval_cases i <;> rfl
    · fin_cases hk <;> rfl
  · refine ⟨rfl, fun i hi => ?_, fun k hk => ?_⟩
    · have hi' : i < 3 := by simpa using hi
      interval_cases i <;> rfl
    · fin_cases hk <;> rfl
  · refine ⟨rfl, fun i hi => ?_, fun k hk => ?_⟩
    · have hi' : i < 4 := by simpa using hi
      interval_cases i <;> rfl
    · fin_cases hk <;> rfl
  · refine ⟨rfl, fun i hi => ?_, fun k hk => ?_⟩
    · have hi' : i < 5 := by simpa using hi
      interval_cases i <;> rfl
    · fin_cases hk <;> rfl
  · exfalso
    simp only [List.length_cons] at h
    omega

/-- Witness for C8 on a concrete 2-field record: the first key is bound to
the first value, and a trailing schema key is absent. -/
theorem to_named_record_short_raw_witness :
    List.lookup (KEYS.getD 0 "") (to_named_record ["t1", "t2"]) = some "t1" ∧
    List.lookup "Effective Date" (to_named_record ["t1", "t2"]) = none := by
  have h := to_named_record_short_raw ["t1", "t2"] (by decide)
  exact ⟨h.2.1 0 (by decide), h.2.2 "Effective Date" (by decide)⟩

/-- Unfolding of the page loop: folding over any index list appends the
per-index requests and the per-index response data to the accumulators. -/
theorem fetch_foldl {α : Type} (api : PageRequest → List α) (l : List Nat)
    (a : List PageRequest) (b : List α) :
    l.foldl (fun acc i => (acc.1 ++ [mkPage i], acc.2 ++ api (mkPage i))) (a, b) =
      (a ++ l.map mkPage, b ++ (l.map (fun i => api (mkPage i))).flatten) := by
  induction l generalizing a b with
  | nil => simp
  | cons x xs ih =>
      simp only [List.foldl_cons, List.map_cons, List.flatten_cons, ih]
      simp [List.append_assoc]

/-- Closed form of `fetch_all_data`: one request per page index, data in
request order. -/
theorem fetch_all_data_eq {α : Type} (api : PageRequest → List α) (total : Nat) :
    fetch_all_data api total =
      ((List.range (pageCount total)).map mkPage,
        ((List.range (pageCount total)).map (fun i => api (mkPage i))).flatten) := by
  unfold fetch_all_data
  rw [fetch_foldl]
  simp

/-- Claim C2: for every total, the page loop issues exactly the ceiling of
total over 100 sequential requests; the request at index `i` carries
`draw = i`, `length = 100` and `start = i * 100`; and the result is the
concatenation of the responses' data arrays in request order.  The second
conjunct characterises `pageCount` as the exact ceiling. -/
theorem fetch_all_data_paging {α : Type} (api : PageRequest → List α) (total : Nat) :
    (fetch_all_data api total).1.length = pageCount total ∧
    (total ≤ 100 * pageCount total ∧ ∀ m, total ≤ 100 * m → pageCount total ≤ m) ∧
    (∀ i, i < pageCount total →
      (fetch_all_data api total).1.getD i (mkPage 0) = ⟨i, 100, i * 100⟩) ∧
    (fetch_all_data api total).2 = ((fetch_all_data api total).1.map api).flatten := by
  rw [fetch_all_data_eq]
  refine ⟨by simp, ⟨?_, ?_⟩, ?_, ?_⟩
  · unfold pageCount; omega
  · intro m hm; unfold pageCount; omega
  · intro i hi
    rw [List.getD_eq_getD_get?, List.get?_eq_getElem?, List.getElem?_map,
      List.getElem?_range hi]
    rfl
  · rw [List.map_map]
    rfl

/-- Witness for C2 at total 250: exactly 3 requests, with offsets 0, 100
and 200, ascending draws matching the page index, and page size 100. -/
theorem fetch_all_data_paging_witness :
    (fetch_all_data (fun _ => ([] : List RawRecord)) 250).1.length = 3 ∧
    (fetch_all_data (fun _ => ([] : List RawRecord)) 250).1.getD 0 (mkPage 0) = ⟨0, 100, 0⟩ ∧
    (fetch_all_data (fun _ => ([] : List RawRecord)) 250).1.getD 1 (mkPage 0) = ⟨1, 100, 100⟩ ∧
    (fetch_all_data (fun _ => ([] : List RawRecord)) 250).1.getD 2 (mkPage 0) = ⟨2, 100, 200⟩ := by
  have h := fetch_all_data_paging (fun _ => ([] : List RawRecord)) 250
  refine ⟨?_, ?_, ?_, ?_⟩
  · rw [h.1]; rfl
  · simpa using h.2.2.1 0 (by norm_num [pageCount])
  · simpa using h.2.2.1 1 (by norm_num [pageCount])
  · simpa using h.2.2.1 2 (by norm_num [pageCount])

/-- Claim C4: with the snapshot file present, `get_payment_plan` issues no
network request, writes nothing, and returns the deserialised on-disk
snapshot unchanged; consequently, starting from an empty filesystem, a
successful first call leaves a snapshot behind and a second call issues no
network request. -/
theorem cache_hit_no_requests (api : Api) :
    (∀ snap, get_payment_plan api (some snap) =
      ⟨Except.ok snap, some snap, [], none⟩) ∧
    (∀ total, api.probe.recordsTotal = some total →
      (get_payment_plan api ((get_payment_plan api none).fsAfter)).trace = []) := by
  constructor
  · intro snap; rfl
  · intro total h
    simp [get_payment_plan, h]

/-- Witness for C4 with a concrete endpoint and snapshot. -/
theorem cache_hit_no_requests_witness :
    get_payment_plan apiEmpty (some ⟨[]⟩) = ⟨Except.ok ⟨[]⟩, some ⟨[]⟩, [], none⟩ ∧
    (get_payment_plan apiEmpty ((get_payment_plan apiEmpty none).fsAfter)).trace = [] :=
  ⟨(cache_hit_no_requests apiEmpty).1 ⟨[]⟩, (cache_hit_no_requests apiEmpty).2 0 rfl⟩

/-- Claim C5: when the probe response lacks `recordsTotal`, the run prints
the diagnostic carrying the raw response, issues no page request (the trace
is the probe alone), writes no snapshot file, and aborts with the uncaught
exception of reading the still-missing file. -/
theorem probe_missing_total_aborts (api : Api) (h : api.probe.recordsTotal = none) :
    get_payment_plan api none =
      ⟨Except.error "FileNotFoundError", none, [Request.probe], some api.probe.raw⟩ ∧
    ∀ p, Request.page p ∉ (get_payment_plan api none).trace := by
  have he : get_payment_plan api none =
      ⟨Except.error "FileNotFoundError", none, [Request.probe], some api.probe.raw⟩ := by
    simp [get_payment_plan, h]
  refine ⟨he, fun p hp => ?_⟩
  rw [he] at hp
  simp at hp

/-- Witness for C5 with a concrete endpoint whose probe lacks the field. -/
theorem probe_missing_total_aborts_witness :
    get_payment_plan apiNoTotal none =
      ⟨Except.error "FileNotFoundError", none, [Request.probe], some "raw body"⟩ :=
  (probe_missing_total_aborts apiNoTotal rfl).1

/-- Claim C10: with 0 total records the page loop issues no page request and
returns the empty list, the saved snapshot is the container of the empty
data list, the first run commits that snapshot with only the probe request,
and a later run on the committed snapshot is a cache hit with no network
traffic. -/
theorem empty_dataset_snapshot (api : Api) (h : api.probe.recordsTotal = some 0) :
    fetch_all_data api.pages 0 = ([], []) ∧
    save_payment_plan_data [] = ⟨[]⟩ ∧
    get_payment_plan api none =
      ⟨Except.ok ⟨[]⟩, some ⟨[]⟩, [Request.probe], none⟩ ∧
    get_payment_plan api (some ⟨[]⟩) =
      ⟨Except.ok ⟨[]⟩, some ⟨[]⟩, [], none⟩ := by
  refine ⟨rfl, rfl, ?_, rfl⟩
  simp [get_payment_plan, h, fetch_all_data, pageCount, save_payment_plan_data]

/-- Witness for C10 with a concrete empty-dataset endpoint. -/
theorem empty_dataset_snapshot_witness :
    get_payment_plan apiEmpty none =
      ⟨Except.ok ⟨[]⟩, some ⟨[]⟩, [Request.probe], none⟩ :=
  (empty_dataset_snapshot apiEmpty rfl).2.2.1

/-- Characterisation of the lazy group: it succeeds exactly on texts that
start with the group, followed by the terminating less-than sign, where the
group contains neither a less-than sign nor a newline. -/
theorem titleAt_eq_some_iff (cs g : List Char) :
    titleAt cs = some g ↔ ∃ post, cs = g ++ '<' :: post ∧ '<' ∉ g ∧ '\n' ∉ g := by
  induction cs generalizing g with
  | nil =>
      constructor
      · intro h; exact absurd h (by simp [titleAt])
      · rintro ⟨post, heq, -, -⟩
        exact absurd heq.symm (by simp)
  | cons c cs ih =>
      by_cases hc : c = '<'
      · subst hc
        have hred : titleAt ('<' :: cs) = some [] := rfl
        rw [hred]
        constructor
        · intro h
          injection h with h
          subst h
          exact ⟨cs, rfl, by simp, by simp⟩
        · rintro ⟨post, heq, hlt, hnl⟩
          rcases g with _ | ⟨a, g'⟩
          · rfl
          · rw [List.cons_append] at heq
            injection heq with h1 h2
            subst h1
            exact absurd (List.mem_cons_self _ _) hlt
      · by_cases hn : c = '\n'
        · subst hn
          have hred : titleAt ('\n' :: cs) = none := rfl
          rw [hred]
          constructor
          · intro h; exact absurd h (by simp)
          · rintro ⟨post, heq, hlt, hnl⟩
            rcases g with _ | ⟨a, g'⟩
            · rw [List.nil_append] at heq
              injection heq with h1 h2
              exact absurd h1 (by decide)
            · rw [List.cons_append] at heq
              injection heq with h1 h2
              subst h1
              exact absurd (List.mem_cons_self _ _) hnl
        · simp only [titleAt, if_neg hc, if_neg hn]
          constructor
          · intro h
            rcases Option.map_eq_some'.mp h with ⟨g', hg', hcg⟩
            obtain ⟨post, heq, hlt, hnl⟩ := (ih g').mp hg'
            subst hcg
            refine ⟨post, ?_, ?_, ?_⟩
            · rw [List.cons_append, heq]
            · intro hm
              rcases List.mem_cons.mp hm with h1 | h1
              · exact hc h1.symm
              · exact hlt h1
            · intro hm
              rcases List.mem_cons.mp hm with h1 | h1
              · exact hn h1.symm
              · exact hnl h1
          · rintro ⟨post, heq, hlt, hnl⟩
            rcases g with _ | ⟨a, g'⟩
            · rw [List.nil_append] at heq
              injection heq with h1 h2
              exact absurd h1 hc
            · rw [List.cons_append] at heq
              injection heq with h1 h2
              subst h1
              have hg' : titleAt cs = some g' := (ih g').mpr
                ⟨post, h2, fun hm => hlt (List.mem_cons_of_mem _ hm),
                  fun hm => hnl (List.mem_cons_of_mem _ hm)⟩
              rw [hg']
              rfl

/-- Unfolding of the scan at a greater-than sign. -/
theorem searchTitle_cons_gt (cs : List Char) :
    searchTitle ('>' :: cs) =
      match titleAt cs with
      | some g => some g
      | none => searchTitle cs := rfl

/-- The scan fails exactly when no matching decomposition of the text
exists. -/
theorem searchTitle_eq_none_iff (cs : List Char) :
    searchTitle cs = none ↔ ∀ pre mid post, ¬ IsMatchDecomp cs pre mid post := by
  induction cs with
  | nil =>
      refine ⟨fun _ pre mid post hd => ?_, fun _ => rfl⟩
      exact absurd hd.1.symm (by simp)
  | cons c cs ih =>
      by_cases hc : c = '>'
      · subst hc
        cases hta : titleAt cs with
        | some g =>
            have hred : searchTitle ('>' :: cs) = some g := by
              rw [searchTitle_cons_gt, hta]
            rw [hred]
            obtain ⟨post, heq, h1, h2⟩ := (titleAt_eq_some_iff cs g).mp hta
            constructor
            · intro h; exact absurd h (by simp)
            · intro h
              exact absurd ⟨by rw [List.nil_append, heq], h1, h2⟩ (h [] g post)
        | none =>
            have hred : searchTitle ('>' :: cs) = searchTitle cs := by
              rw [searchTitle_cons_gt, hta]
            rw [hred, ih]
            constructor
            · intro h pre mid post hd
              rcases pre with _ | ⟨a, pre'⟩
              · obtain ⟨heq, h1, h2⟩ := hd
                rw [List.nil_append] at heq
                injection heq with h3 h4
                have hsome := (titleAt_eq_some_iff cs mid).mpr ⟨post, h4, h1, h2⟩
                rw [hta] at hsome
                exact absurd hsome (by simp)
              · obtain ⟨heq, h1, h2⟩ := hd
                rw [List.cons_append] at heq
                injection heq with h3 h4
                exact h pre' mid post ⟨h4, h1, h2⟩
            · intro h pre mid post hd
              exact h ('>' :: pre) mid post
                ⟨by rw [List.cons_append, hd.1], hd.2.1, hd.2.2⟩
      · have hred : searchTitle (c :: cs) = searchTitle cs := by
          simp only [searchTitle, if_neg hc]
        rw [hred, ih]
        constructor
        · intro h pre mid post hd
          rcases pre with _ | ⟨a, pre'⟩
          · obtain ⟨heq, -, -⟩ := hd
            rw [List.nil_append] at heq
            injection heq with h3 h4
            exact absurd h3 hc
          · obtain ⟨heq, h1, h2⟩ := hd
            rw [List.cons_append] at heq
            injection heq with h3 h4
            exact h pre' mid post ⟨h4, h1, h2⟩
        · intro h pre mid post hd
          exact h (c :: pre) mid post
            ⟨by rw [List.cons_append, hd.1], hd.2.1, hd.2.2⟩

/-- The scan succeeds exactly on the matching decomposition with the
shortest prefix before the opening greater-than sign: the leftmost-match
rule of the search. -/
theorem searchTitle_eq_some_iff (cs g : List Char) :
    searchTitle cs = some g ↔
      ∃ pre post, IsMatchDecomp cs pre g post ∧
        ∀ pre2 mid2 post2, IsMatchDecomp cs pre2 mid2 post2 →
          pre.length ≤ pre2.length := by
  induction cs generalizing g with
  | nil =>
      constructor
      · intro h; exact absurd h (by simp [searchTitle])
      · rintro ⟨pre, post, ⟨heq, -, -⟩, -⟩
        exact absurd heq.symm (by simp)
  | cons c cs ih =>
      by_cases hc : c = '>'
      · subst hc
        cases hta : titleAt cs with
        | some g0 =>
            have hred : searchTitle ('>' :: cs) = some g0 := by
              rw [searchTitle_cons_gt, hta]
            rw [hred]
            obtain ⟨post0, heq0, h10, h20⟩ := (titleAt_eq_some_iff cs g0).mp hta
            have hd0 : IsMatchDecomp ('>' :: cs) [] g0 post0 :=
              ⟨by rw [List.nil_append, heq0], h10, h20⟩
            constructor
            · intro h
              injection h with h
              subst h
              exact ⟨[], post0, hd0, fun pre2 mid2 post2 _ => Nat.zero_le _⟩
            · rintro ⟨pre, post, hd, hmin⟩
              have hlen : pre.length = 0 := Nat.le_zero.mp (hmin [] g0 post0 hd0)
              have hpre : pre = [] := List.length_eq_zero.mp hlen
              subst hpre
              obtain ⟨heq, h1, h2⟩ := hd
              rw [List.nil_append] at heq
              injection heq with h3 h4
              have hsome : titleAt cs = some g :=
                (titleAt_eq_some_iff cs g).mpr ⟨post, h4, h1, h2⟩
              rw [hta] at hsome
              injection hsome with h
              rw [h]
        | none =>
            have hred : searchTitle ('>' :: cs) = searchTitle cs := by
              rw [searchTitle_cons_gt, hta]
            rw [hred, ih]
            constructor
            · rintro ⟨pre, post, hd, hmin⟩
              refine ⟨'>' :: pre, post,
                ⟨by rw [List.cons_append, hd.1], hd.2.1, hd.2.2⟩, ?_⟩
              intro pre2 mid2 post2 hd2
              rcases pre2 with _ | ⟨a, pre2'⟩
              · obtain ⟨heq2, h12, h22⟩ := hd2
                rw [List.nil_append] at heq2
                injection heq2 with h3 h4
                have hsome := (titleAt_eq_some_iff cs mid2).mpr ⟨post2, h4, h12, h22⟩
                rw [hta] at hsome
                exact absurd hsome (by simp)
              · obtain ⟨heq2, h12, h22⟩ := hd2
                rw [List.cons_append] at heq2
                injection heq2 with h3 h4
                have hle := hmin pre2' mid2 post2 ⟨h4, h12, h22⟩
                simp only [List.length_cons]
                omega
            · rintro ⟨pre, post, hd, hmin⟩
              rcases pre with _ | ⟨a, pre'⟩
              · obtain ⟨heq, h1, h2⟩ := hd
                rw [List.nil_append] at heq
                injection heq with h3 h4
                have hsome := (titleAt_eq_some_iff cs g).mpr ⟨post, h4, h1, h2⟩
                rw [hta] at hsome
                exact absurd hsome (by simp)
              · obtain ⟨heq, h1, h2⟩ := hd
                rw [List.cons_append] at heq
                injection heq with h3 h4
                refine ⟨pre', post, ⟨h4, h1, h2⟩, ?_⟩
                intro pre2 mid2 post2 hd2
                have hle := hmin ('>' :: pre2) mid2 post2
                  ⟨by rw [List.cons_append, hd2.1], hd2.2.1, hd2.2.2⟩
                simp only [List.length_cons] at hle
                omega
      · have hred : searchTitle (c :: cs) = searchTitle cs := by
          simp only [searchTitle, if_neg hc]
        rw [hred, ih]
        constructor
        · rintro ⟨pre, post, hd, hmin⟩
          refine ⟨c :: pre, post,
            ⟨by rw [List.cons_append, hd.1], hd.2.1, hd.2.2⟩, ?_⟩
          intro pre2 mid2 post2 hd2
          rcases pre2 with _ | ⟨a, pre2'⟩
          · obtain ⟨heq2, -, -⟩ := hd2
            rw [List.nil_append] at heq2
            injection heq2 with h3 h4
            exact absurd h3 hc
          · obtain ⟨heq2, h12, h22⟩ := hd2
            rw [List.cons_append] at heq2
            injection heq2 with h3 h4
            have hle := hmin pre2' mid2 post2 ⟨h4, h12, h22⟩
            simp only [List.length_cons]
            omega
        · rintro ⟨pre, post, hd, hmin⟩
          rcases pre with _ | ⟨a, pre'⟩
          · obtain ⟨heq, -, -⟩ := hd
            rw [List.nil_append] at heq
            injection heq with h3 h4
            exact absurd h3 hc
          · obtain ⟨heq, h1, h2⟩ := hd
            rw [List.cons_append] at heq
            injection heq with h3 h4
            refine ⟨pre', post, ⟨h4, h1, h2⟩, ?_⟩
            intro pre2 mid2 post2 hd2
            have hle := hmin (c :: pre2) mid2 post2
              ⟨by rw [List.cons_append, hd2.1], hd2.2.1, hd2.2.2⟩
            simp only [List.length_cons] at hle
            omega

/-- Claim C3 (amended): `extract_title` returns the text strictly between
the first greater-than sign that is followed, with no intervening newline,
by a less-than sign, and that following less-than sign (the dot of the
pattern does not match a newline); when no such delimited text exists it
returns null rather than raising. -/
theorem extract_title_first_delimited (s : String) :
    (∀ t : String, extract_title s = some t ↔
      ∃ pre post, IsMatchDecomp s.data pre t.data post ∧
        ∀ pre2 mid2 post2, IsMatchDecomp s.data pre2 mid2 post2 →
          pre.length ≤ pre2.length) ∧
    (extract_title s = none ↔
      ∀ pre mid post, ¬ IsMatchDecomp s.data pre mid post) := by
  constructor
  · intro t
    unfold extract_title
    constructor
    · intro h
      rcases Option.map_eq_some'.mp h with ⟨g, hg, hmk⟩
      have hgd : g = t.data := by rw [← hmk]
      rw [hgd] at hg
      exact (searchTitle_eq_some_iff s.data t.data).mp hg
    · intro hx
      have hs : searchTitle s.data = some t.data :=
        (searchTitle_eq_some_iff s.data t.data).mpr hx
      rw [hs]
      rfl
  · unfold extract_title
    rw [Option.map_eq_none']
    rw [searchTitle_eq_none_iff]

/-- Witness for C3 at the specification's example: the returned title is
backed by a shortest-prefix matching decomposition of the input. -/
theorem extract_title_first_delimited_witness :
    ∃ pre post,
      IsMatchDecomp ("<a href=x>Accountant I</a>").data pre ("Accountant I").data post ∧
        ∀ pre2 mid2 post2,
          IsMatchDecomp ("<a href=x>Accountant I</a>").data pre2 mid2 post2 →
            pre.length ≤ pre2.length :=
  ((extract_title_first_delimited "<a href=x>Accountant I</a>").1 "Accountant I").mp rfl

/-- Counterexample for C3 as stated: in this input the first greater-than
sign is followed by a less-than sign, so the claim predicts the in-between
text, but the dot of the pattern does not match a newline and the accessor
returns null instead. -/
theorem extract_title_newline_cex :
    extract_title_claim ">a\nb<" = some "a\nb" ∧ extract_title ">a\nb<" = none :=
  ⟨rfl, rfl⟩
